import Mathlib

/-!
Verification of the permission-aware RAG filter (rag.go).

The Go program keeps a list of documents and, on `Query(userID, query)`,
first selects candidates by case-insensitive substring match on the text,
then for each candidate parses the `spicedb_object` metadata entry into a
`type:id` resource reference and issues a `CheckPermission` call against
SpiceDB, failing fast on any client error and keeping exactly the
candidates whose response is `PERMISSIONSHIP_HAS_PERMISSION`.

The SpiceDB client collaborator is abstracted as a pure function from
check requests to a response or an error (`Except E`); strings are
modelled as Lean `String`s and their character lists.
-/

namespace Rag

/-- A document chunk: id, free text, and string-to-string metadata.
The Go `map[string]string` is modelled as an association list with
first-match lookup. -/
structure Document where
  ID : String
  Text : String
  Metadata : List (String × String)
deriving DecidableEq

/-- Go map read with zero-value default: `m[k]` yields `""` when `k` is
absent, as in `d.Metadata["spicedb_object"]`. -/
def metaGet (m : List (String × String)) (k : String) : String :=
  (m.lookup k).getD ""

/-- Per-character lower-casing, the embedding of `strings.ToLower`. -/
def lowerChars (s : List Char) : List Char :=
  s.map Char.toLower

/-- Test `hasPrefixFn pat s` : `pat` is a prefix of `s` (character lists). -/
def hasPrefixFn : List Char → List Char → Bool
  | [], _ => true
  | _ :: _, [] => false
  | a :: as, b :: bs => a == b && hasPrefixFn as bs

/-- Test `containsFn s pat` : `pat` occurs in `s` as a contiguous substring,
the embedding of `strings.Contains(s, pat)`. -/
def containsFn : List Char → List Char → Bool
  | [], pat => pat.isEmpty
  | c :: rest, pat => hasPrefixFn pat (c :: rest) || containsFn rest pat

/-- The retrieval predicate of `Query`:
`strings.Contains(strings.ToLower(d.Text), strings.ToLower(query))`. -/
def textMatches (text query : String) : Bool :=
  containsFn (lowerChars text.data) (lowerChars query.data)

/-- The retrieval pass of `Query` (the first `for` loop of rag.go):
keep, in order, the documents whose lower-cased text contains the
lower-cased query. -/
def candidatesOf (docs : List Document) (query : String) : List Document :=
  docs.filter (fun d => textMatches d.Text query)

/-- authzed api: a resource or subject object reference. -/
structure ObjectReference where
  ObjectType : String
  ObjectId : String
deriving DecidableEq

/-- authzed api: a subject reference wrapping an object reference. -/
structure SubjectReference where
  Object : ObjectReference
deriving DecidableEq

/-- authzed api: the permissionship values a check can return. -/
inductive Permissionship where
  | PERMISSIONSHIP_UNSPECIFIED
  | PERMISSIONSHIP_NO_PERMISSION
  | PERMISSIONSHIP_HAS_PERMISSION
  | PERMISSIONSHIP_CONDITIONAL_PERMISSION
deriving DecidableEq

/-- authzed api: a CheckPermission request. -/
structure CheckPermissionRequest where
  Resource : ObjectReference
  Permission : String
  Subject : SubjectReference
deriving DecidableEq

/-- authzed api: a CheckPermission response (only the permissionship
field is read by the program). -/
structure CheckPermissionResponse where
  Permissionship : Permissionship
deriving DecidableEq

/-- First split of a character list at a colon: `some (before, after)`
when a colon occurs, `none` otherwise. -/
def splitFirstColon : List Char → Option (List Char × List Char)
  | [] => none
  | c :: rest =>
    if c = ':' then some ([], rest)
    else (splitFirstColon rest).map (fun p => (c :: p.1, p.2))

/-- The embedding of `strings.SplitN(s, ":", 2)`: two parts split at the
first colon when a colon occurs, else the single-element list. -/
def splitN2 (s : List Char) : List (List Char) :=
  match splitFirstColon s with
  | some (a, b) => [a, b]
  | none => [s]

/-- The identity-resolution step of `Query` (spec §4.2): read
`Metadata["spicedb_object"]`, treat the empty value as absent, split on
the first colon and require exactly two parts. -/
def resolveIdentity (d : Document) : Option (String × String) :=
  let spiceObj := metaGet d.Metadata "spicedb_object"
  if spiceObj = "" then none
  else
    match splitN2 spiceObj.data with
    | [objType, objID] => some (String.mk objType, String.mk objID)
    | _ => none

/-- The check request `Query` builds for a resolved identity `rid`:
resource from the parsed reference, the configured permission, and a
`"user"`-typed subject naming the querying principal. -/
def mkCheckRequest (permission userID : String) (rid : String × String) :
    CheckPermissionRequest :=
  { Resource := { ObjectType := rid.1, ObjectId := rid.2 }
    Permission := permission
    Subject := { Object := { ObjectType := "user", ObjectId := userID } } }

/-- The pipeline state of rag.go, with the SpiceDB client abstracted as
a function returning a response or an error of type `E`. -/
structure RAGPipeline (E : Type) where
  docs : List Document
  spiceClient : CheckPermissionRequest → Except E CheckPermissionResponse
  resourceType : String
  permission : String

/-- Constructor `NewRAGPipeline` of rag.go. -/
def NewRAGPipeline {E : Type}
    (spiceClient : CheckPermissionRequest → Except E CheckPermissionResponse)
    (resourceType permission : String) (docs : List Document) : RAGPipeline E :=
  { docs := docs
    spiceClient := spiceClient
    resourceType := resourceType
    permission := permission }

variable {E : Type}

/-- The per-candidate authorization loop of `Query` (the second `for`
loop of rag.go): skip candidates without a well-formed
`spicedb_object` reference, issue a check for the others, abort on the
first client error, and keep exactly those whose permissionship is
`PERMISSIONSHIP_HAS_PERMISSION`. -/
def checkLoop (client : CheckPermissionRequest → Except E CheckPermissionResponse)
    (permission userID : String) : List Document → Except E (List Document)
  | [] => Except.ok []
  | d :: rest =>
    match resolveIdentity d with
    | none => checkLoop client permission userID rest
    | some rid =>
      match client (mkCheckRequest permission userID rid) with
      | Except.error e => Except.error e
      | Except.ok resp =>
        if resp.Permissionship = Permissionship.PERMISSIONSHIP_HAS_PERMISSION then
          (checkLoop client permission userID rest).map (fun l => d :: l)
        else
          checkLoop client permission userID rest

/-- Operation `Query` of rag.go: retrieval pass followed by the authorization
loop. -/
def Query (r : RAGPipeline E) (userID query : String) :
    Except E (List Document) :=
  checkLoop r.spiceClient r.permission userID (candidatesOf r.docs query)

/-- The authorization loop instrumented with the list of check requests
it actually issues, in order; it computes the same result as
`checkLoop`. -/
def checkLoopTr (client : CheckPermissionRequest → Except E CheckPermissionResponse)
    (permission userID : String) :
    List Document → Except E (List Document) × List CheckPermissionRequest
  | [] => (Except.ok [], [])
  | d :: rest =>
    match resolveIdentity d with
    | none => checkLoopTr client permission userID rest
    | some rid =>
      match client (mkCheckRequest permission userID rid) with
      | Except.error e => (Except.error e, [mkCheckRequest permission userID rid])
      | Except.ok resp =>
        (if resp.Permissionship = Permissionship.PERMISSIONSHIP_HAS_PERMISSION then
          (checkLoopTr client permission userID rest).1.map (fun l => d :: l)
        else
          (checkLoopTr client permission userID rest).1,
        mkCheckRequest permission userID rid :: (checkLoopTr client permission userID rest).2)

/-- The check requests a `Query` call issues, in order. -/
def QueryTrace (r : RAGPipeline E) (userID query : String) :
    List CheckPermissionRequest :=
  (checkLoopTr r.spiceClient r.permission userID (candidatesOf r.docs query)).2

/-- The checks `Query` would issue for a candidate list were no client
error to occur: one per candidate with a well-formed reference, in
candidate order. -/
def potentialReqs (permission userID : String) (docs : List Document) :
    List CheckPermissionRequest :=
  docs.filterMap (fun d => (resolveIdentity d).map (mkCheckRequest permission userID))

/-- Cut a request list at the first request the client refuses: the
requests a fail-fast loop issues. -/
def traceOf (client : CheckPermissionRequest → Except E CheckPermissionResponse) :
    List CheckPermissionRequest → List CheckPermissionRequest
  | [] => []
  | q :: rest =>
    match client q with
    | Except.error _ => [q]
    | Except.ok _ => q :: traceOf client rest

/-- The decision `Query` effectively takes for one candidate when the
client does not err on it: kept exactly when the reference is
well-formed and the response permissionship is
`PERMISSIONSHIP_HAS_PERMISSION`. -/
def allowedCheck (client : CheckPermissionRequest → Except E CheckPermissionResponse)
    (permission userID : String) (d : Document) : Bool :=
  match resolveIdentity d with
  | none => false
  | some rid =>
    match client (mkCheckRequest permission userID rid) with
    | Except.ok resp =>
      decide (resp.Permissionship = Permissionship.PERMISSIONSHIP_HAS_PERMISSION)
    | Except.error _ => false

/-! ### Concrete instances (the reference dataset of the test file and
a few client behaviours), used to instantiate the theorems below -/

/-- doc1 of the reference dataset. -/
def docRoadmap : Document :=
  ⟨"doc1", "Internal roadmap for 2025. Highly confidential.",
    [("spicedb_object", "document:doc1")]⟩

/-- doc2 of the reference dataset. -/
def docPlaybook : Document :=
  ⟨"doc2", "Customer success playbook and escalation procedures.",
    [("spicedb_object", "document:doc2")]⟩

/-- doc3 of the reference dataset. -/
def docFaq : Document :=
  ⟨"doc3", "Public FAQ for all users.", [("spicedb_object", "document:doc3")]⟩

/-- A document with no `spicedb_object` metadata entry. -/
def docNoRef : Document :=
  ⟨"doc8", "Public note for everyone.", []⟩

/-- A document whose reference value `":doc9"` splits into an empty
type part and a non-empty id part. -/
def docBadEmpty : Document :=
  ⟨"doc9", "Public memo for everyone.", [("spicedb_object", ":doc9")]⟩

/-- A client that grants every check. -/
def clientAllow : CheckPermissionRequest → Except String CheckPermissionResponse :=
  fun _ => Except.ok ⟨Permissionship.PERMISSIONSHIP_HAS_PERMISSION⟩

/-- A client extensionally equal to `clientAllow` but syntactically
different. -/
def clientAllow2 : CheckPermissionRequest → Except String CheckPermissionResponse :=
  fun req =>
    if req.Permission = req.Permission then
      Except.ok ⟨Permissionship.PERMISSIONSHIP_HAS_PERMISSION⟩
    else
      Except.error "unreachable"

/-- A client that fails with a transport error on resource id doc2 and
grants everything else. -/
def clientErrDoc2 : CheckPermissionRequest → Except String CheckPermissionResponse :=
  fun req =>
    if req.Resource.ObjectId = "doc2" then Except.error "network failure"
    else Except.ok ⟨Permissionship.PERMISSIONSHIP_HAS_PERMISSION⟩

/-- Permissionship answered by `clientMixed` per resource id. -/
def permFor (id : String) : Permissionship :=
  if id = "doc1" then Permissionship.PERMISSIONSHIP_HAS_PERMISSION
  else if id = "doc2" then Permissionship.PERMISSIONSHIP_CONDITIONAL_PERMISSION
  else if id = "doc3" then Permissionship.PERMISSIONSHIP_NO_PERMISSION
  else Permissionship.PERMISSIONSHIP_UNSPECIFIED

/-- A client that never errs and answers a different permissionship per
resource id. -/
def clientMixed : CheckPermissionRequest → Except String CheckPermissionResponse :=
  fun req => Except.ok ⟨permFor req.Resource.ObjectId⟩

/-- The reference pipeline with a client granting everything. -/
def pipeAllow : RAGPipeline String :=
  NewRAGPipeline clientAllow "document" "read" [docRoadmap, docPlaybook, docFaq]

/-- The reference pipeline with `clientAllow2`. -/
def pipeAllow2 : RAGPipeline String :=
  NewRAGPipeline clientAllow2 "document" "read" [docRoadmap, docPlaybook, docFaq]

/-- The reference pipeline with a client erring on doc2. -/
def pipeErr : RAGPipeline String :=
  NewRAGPipeline clientErrDoc2 "document" "read" [docRoadmap, docPlaybook, docFaq]

/-- The reference pipeline with the mixed-permissionship client. -/
def pipeMixed : RAGPipeline String :=
  NewRAGPipeline clientMixed "document" "read" [docRoadmap, docPlaybook, docFaq]

/-- A pipeline whose collection contains a document without a
reference. -/
def pipeNoRef : RAGPipeline String :=
  NewRAGPipeline clientAllow "document" "read" [docRoadmap, docNoRef, docFaq]

/-! ### Bridge lemmas: the executable matchers and the library order
relations on lists -/

theorem hasPrefixFn_iff : ∀ (pat s : List Char), hasPrefixFn pat s = true ↔ pat <+: s
  | [], s => by simp [hasPrefixFn]
  | _ :: _, [] => by simp [hasPrefixFn]
  | a :: as, b :: bs => by
    simp [hasPrefixFn, hasPrefixFn_iff as bs, List.cons_prefix_cons, And.comm]

theorem containsFn_iff : ∀ (s pat : List Char), containsFn s pat = true ↔ pat <:+: s
  | [], pat => by simp [containsFn, List.isEmpty_iff, List.infix_nil]
  | c :: rest, pat => by
    simp [containsFn, hasPrefixFn_iff, containsFn_iff rest pat, List.infix_cons_iff]

theorem splitFirstColon_none : ∀ (s : List Char), splitFirstColon s = none ↔ ':' ∉ s
  | [] => by simp [splitFirstColon]
  | c :: rest => by
    by_cases hc : c = ':'
    · subst hc; simp [splitFirstColon]
    · simp [splitFirstColon, hc, splitFirstColon_none rest, Ne.symm hc]

theorem splitFirstColon_spec : ∀ (s a b : List Char),
    splitFirstColon s = some (a, b) → s = a ++ ':' :: b ∧ ':' ∉ a
  | [], a, b => by simp [splitFirstColon]
  | c :: rest, a, b => by
    by_cases hc : c = ':'
    · subst hc
      simp only [splitFirstColon, if_pos rfl, Option.some.injEq, Prod.mk.injEq]
      rintro ⟨rfl, rfl⟩
      simp
    · simp only [splitFirstColon, if_neg hc, Option.map_eq_some']
      rintro ⟨⟨a', b'⟩, hsp, heq⟩
      obtain ⟨h1, h2⟩ := splitFirstColon_spec rest a' b' hsp
      cases heq
      subst h1
      simp [h2, Ne.symm hc]

/-! ### Structural lemmas on the authorization loop -/

theorem checkLoop_sublist
    (client : CheckPermissionRequest → Except E CheckPermissionResponse)
    (p u : String) :
    ∀ (l res : List Document), checkLoop client p u l = Except.ok res → res.Sublist l := by
  intro l
  induction l with
  | nil =>
    intro res h
    simp only [checkLoop, Except.ok.injEq] at h
    subst h
    exact List.Sublist.refl _
  | cons d rest ih =>
    intro res h
    simp only [checkLoop] at h
    cases hre : resolveIdentity d with
    | none =>
      simp only [hre] at h
      exact (ih res h).cons d
    | some rid =>
      simp only [hre] at h
      cases hc : client (mkCheckRequest p u rid) with
      | error e => simp only [hc] at h; exact absurd h (by simp)
      | ok resp =>
        simp only [hc] at h
        by_cases hp : resp.Permissionship = Permissionship.PERMISSIONSHIP_HAS_PERMISSION
        · rw [if_pos hp] at h
          cases hr : checkLoop client p u rest with
          | error e => simp only [hr] at h; exact absurd h (by simp [Except.map])
          | ok res' =>
            simp only [hr] at h
            simp only [Except.map, Except.ok.injEq] at h
            subst h
            exact (ih res' hr).cons₂ d
        · rw [if_neg hp] at h
          exact (ih res h).cons d

theorem checkLoop_mem_resolve
    (client : CheckPermissionRequest → Except E CheckPermissionResponse)
    (p u : String) :
    ∀ (l res : List Document), checkLoop client p u l = Except.ok res →
      ∀ d ∈ res, ∃ rid, resolveIdentity d = some rid := by
  intro l
  induction l with
  | nil =>
    intro res h
    simp only [checkLoop, Except.ok.injEq] at h
    subst h
    intro d hd
    exact absurd hd (List.not_mem_nil d)
  | cons d rest ih =>
    intro res h
    simp only [checkLoop] at h
    cases hre : resolveIdentity d with
    | none =>
      simp only [hre] at h
      exact ih res h
    | some rid =>
      simp only [hre] at h
      cases hc : client (mkCheckRequest p u rid) with
      | error e => simp only [hc] at h; exact absurd h (by simp)
      | ok resp =>
        simp only [hc] at h
        by_cases hp : resp.Permissionship = Permissionship.PERMISSIONSHIP_HAS_PERMISSION
        · rw [if_pos hp] at h
          cases hr : checkLoop client p u rest with
          | error e => simp only [hr] at h; exact absurd h (by simp [Except.map])
          | ok res' =>
            simp only [hr] at h
            simp only [Except.map, Except.ok.injEq] at h
            subst h
            intro x hx
            rcases List.mem_cons.mp hx with hxd | hxr
            · exact hxd ▸ ⟨rid, hre⟩
            · exact ih res' hr x hxr
        · rw [if_neg hp] at h
          exact ih res h

theorem checkLoop_skip
    (client : CheckPermissionRequest → Except E CheckPermissionResponse)
    (p u : String) (d : Document) (hd : resolveIdentity d = none) :
    ∀ (l1 l2 : List Document),
      checkLoop client p u (l1 ++ d :: l2) = checkLoop client p u (l1 ++ l2) := by
  intro l1 l2
  induction l1 with
  | nil => simp only [List.nil_append, checkLoop, hd]
  | cons x l1 ih =>
    simp only [List.cons_append, checkLoop, List.append_eq]
    rw [ih]

theorem exceptMap_error_iff {A B : Type} (f : A → B) (x : Except E A) (e : E) :
    Except.map f x = Except.error e ↔ x = Except.error e := by
  cases x <;> simp [Except.map]

theorem checkLoopTr_fst
    (client : CheckPermissionRequest → Except E CheckPermissionResponse)
    (p u : String) :
    ∀ (l : List Document), (checkLoopTr client p u l).1 = checkLoop client p u l := by
  intro l
  induction l with
  | nil => rfl
  | cons d rest ih =>
    cases hre : resolveIdentity d with
    | none => simp only [checkLoopTr, checkLoop, hre]; exact ih
    | some rid =>
      cases hc : client (mkCheckRequest p u rid) with
      | error e => simp only [checkLoopTr, checkLoop, hre, hc]
      | ok resp =>
        by_cases hp : resp.Permissionship = Permissionship.PERMISSIONSHIP_HAS_PERMISSION
        · simp only [checkLoopTr, checkLoop, hre, hc, if_pos hp, ih]
        · simp only [checkLoopTr, checkLoop, hre, hc, if_neg hp, ih]

theorem potentialReqs_cons (p u : String) (d : Document) (rest : List Document) :
    potentialReqs p u (d :: rest) =
      match resolveIdentity d with
      | none => potentialReqs p u rest
      | some rid => mkCheckRequest p u rid :: potentialReqs p u rest := by
  cases hre : resolveIdentity d with
  | none => simp [potentialReqs, List.filterMap_cons, hre]
  | some rid => simp [potentialReqs, List.filterMap_cons, hre]

theorem checkLoopTr_snd
    (client : CheckPermissionRequest → Except E CheckPermissionResponse)
    (p u : String) :
    ∀ (l : List Document),
      (checkLoopTr client p u l).2 = traceOf client (potentialReqs p u l) := by
  intro l
  induction l with
  | nil => rfl
  | cons d rest ih =>
    rw [potentialReqs_cons]
    cases hre : resolveIdentity d with
    | none => simp only [checkLoopTr, hre]; exact ih
    | some rid =>
      cases hc : client (mkCheckRequest p u rid) with
      | error e => simp only [checkLoopTr, traceOf, hre, hc]
      | ok resp => simp only [checkLoopTr, traceOf, hre, hc, ih]

theorem traceOf_mem
    (client : CheckPermissionRequest → Except E CheckPermissionResponse) :
    ∀ (l : List CheckPermissionRequest) (q : CheckPermissionRequest),
      q ∈ traceOf client l → q ∈ l := by
  intro l
  induction l with
  | nil => intro q h; exact absurd h (List.not_mem_nil q)
  | cons x rest ih =>
    intro q h
    cases hc : client x with
    | error e =>
      simp only [traceOf, hc, List.mem_singleton] at h
      exact h ▸ List.mem_cons_self x rest
    | ok resp =>
      simp only [traceOf, hc] at h
      rcases List.mem_cons.mp h with hq | hq
      · exact hq ▸ List.mem_cons_self x rest
      · exact List.mem_cons_of_mem x (ih q hq)

theorem traceOf_break
    (client : CheckPermissionRequest → Except E CheckPermissionResponse)
    (qe : CheckPermissionRequest) (e : E) (he : client qe = Except.error e) :
    ∀ (pre post : List CheckPermissionRequest),
      (∀ q ∈ pre, ∃ resp, client q = Except.ok resp) →
      traceOf client (pre ++ qe :: post) = pre ++ [qe] := by
  intro pre post hpre
  induction pre with
  | nil => simp [traceOf, he]
  | cons x rest ih =>
    obtain ⟨resp, hresp⟩ := hpre x (List.mem_cons_self x rest)
    simp only [List.cons_append, traceOf, hresp, List.append_eq]
    rw [ih (fun q hq => hpre q (List.mem_cons_of_mem x hq))]

theorem checkLoopTr_error_iff
    (client : CheckPermissionRequest → Except E CheckPermissionResponse)
    (p u : String) (e : E) :
    ∀ (l : List Document),
      (checkLoopTr client p u l).1 = Except.error e ↔
        ∃ q ∈ (checkLoopTr client p u l).2, client q = Except.error e := by
  intro l
  induction l with
  | nil => simp [checkLoopTr]
  | cons d rest ih =>
    cases hre : resolveIdentity d with
    | none => simp only [checkLoopTr, hre]; exact ih
    | some rid =>
      cases hc : client (mkCheckRequest p u rid) with
      | error e' =>
        simp only [checkLoopTr, hre, hc, List.mem_singleton]
        constructor
        · intro h
          simp only [Except.error.injEq] at h
          subst h
          exact ⟨mkCheckRequest p u rid, rfl, hc⟩
        · rintro ⟨q, rfl, hq⟩
          rw [hc] at hq
          simp only [Except.error.injEq] at hq
          rw [hq]
      | ok resp =>
        by_cases hp : resp.Permissionship = Permissionship.PERMISSIONSHIP_HAS_PERMISSION
        · simp only [checkLoopTr, hre, hc, if_pos hp, exceptMap_error_iff,
            List.mem_cons]
          rw [ih]
          constructor
          · rintro ⟨q, hq, hcq⟩
            exact ⟨q, Or.inr hq, hcq⟩
          · rintro ⟨q, hq | hq, hcq⟩
            · subst hq
              rw [hc] at hcq
              exact absurd hcq (by simp)
            · exact ⟨q, hq, hcq⟩
        · simp only [checkLoopTr, hre, hc, if_neg hp, List.mem_cons]
          rw [ih]
          constructor
          · rintro ⟨q, hq, hcq⟩
            exact ⟨q, Or.inr hq, hcq⟩
          · rintro ⟨q, hq | hq, hcq⟩
            · subst hq
              rw [hc] at hcq
              exact absurd hcq (by simp)
            · exact ⟨q, hq, hcq⟩

theorem potentialReqs_mem (p u : String) :
    ∀ (l : List Document) (q : CheckPermissionRequest), q ∈ potentialReqs p u l →
      ∃ d ∈ l, ∃ rid, resolveIdentity d = some rid ∧ q = mkCheckRequest p u rid := by
  intro l
  induction l with
  | nil => intro q h; exact absurd h (List.not_mem_nil q)
  | cons d rest ih =>
    intro q h
    rw [potentialReqs_cons] at h
    cases hre : resolveIdentity d with
    | none =>
      rw [hre] at h
      obtain ⟨x, hx, rid, hrid, hq⟩ := ih q h
      exact ⟨x, List.mem_cons_of_mem d hx, rid, hrid, hq⟩
    | some rid =>
      rw [hre] at h
      rcases List.mem_cons.mp h with hq | hq
      · exact ⟨d, List.mem_cons_self d rest, rid, hre, hq⟩
      · obtain ⟨x, hx, rid', hrid', hq'⟩ := ih q hq
        exact ⟨x, List.mem_cons_of_mem d hx, rid', hrid', hq'⟩

theorem checkLoop_ok_filter
    (client : CheckPermissionRequest → Except E CheckPermissionResponse)
    (p u : String) :
    ∀ (l : List Document),
      (∀ d ∈ l, ∀ rid, resolveIdentity d = some rid →
        ∃ resp, client (mkCheckRequest p u rid) = Except.ok resp) →
      checkLoop client p u l = Except.ok (l.filter (allowedCheck client p u)) := by
  intro l
  induction l with
  | nil => intro _; rfl
  | cons d rest ih =>
    intro hall
    have hrest := ih (fun x hx => hall x (List.mem_cons_of_mem d hx))
    cases hre : resolveIdentity d with
    | none =>
      have hfalse : allowedCheck client p u d = false := by
        simp [allowedCheck, hre]
      simp only [checkLoop, hre, List.filter_cons, hfalse, Bool.false_eq_true,
        if_neg (by simp : ¬ (false = true))]
      exact hrest
    | some rid =>
      obtain ⟨resp, hc⟩ := hall d (List.mem_cons_self d rest) rid hre
      by_cases hp : resp.Permissionship = Permissionship.PERMISSIONSHIP_HAS_PERMISSION
      · have htrue : allowedCheck client p u d = true := by
          simp [allowedCheck, hre, hc, hp]
        simp only [checkLoop, hre, hc, if_pos hp, List.filter_cons, htrue,
          hrest, Except.map, Except.ok.injEq]
        simp
      · have hfalse : allowedCheck client p u d = false := by
          simp [allowedCheck, hre, hc, hp]
        simp only [checkLoop, hre, hc, if_neg hp, List.filter_cons, hfalse,
          if_neg (by simp : ¬ (false = true))]
        exact hrest

theorem checkLoop_congr
    (c1 c2 : CheckPermissionRequest → Except E CheckPermissionResponse)
    (p u : String) (hcc : ∀ q, c1 q = c2 q) :
    ∀ (l : List Document), checkLoop c1 p u l = checkLoop c2 p u l := by
  intro l
  induction l with
  | nil => rfl
  | cons d rest ih =>
    cases hre : resolveIdentity d with
    | none => simp only [checkLoop, hre]; exact ih
    | some rid => simp only [checkLoop, hre, hcc, ih]

/-- Unfolding of `resolveIdentity` through `splitN2` to the underlying
first-colon split. -/
theorem resolveIdentity_eq (d : Document) :
    resolveIdentity d =
      if metaGet d.Metadata "spicedb_object" = "" then none
      else
        match splitFirstColon (metaGet d.Metadata "spicedb_object").data with
        | some (a, b) => some (String.mk a, String.mk b)
        | none => none := by
  by_cases h0 : metaGet d.Metadata "spicedb_object" = ""
  · simp [resolveIdentity, h0]
  · cases hsp : splitFirstColon (metaGet d.Metadata "spicedb_object").data with
    | none => simp [resolveIdentity, splitN2, h0, hsp]
    | some p =>
      obtain ⟨a, b⟩ := p
      simp [resolveIdentity, splitN2, h0, hsp]

/-! ### Claim theorems -/

/-- C1: on any successful `Query`, the returned sequence is an
order-preserving subsequence of the retrieval-pass candidate sequence,
the candidate sequence is an order-preserving subsequence of the
configured collection, and hence so is the result. -/
theorem query_order_preservation (r : RAGPipeline E) (userID query : String)
    (res : List Document) (h : Query r userID query = Except.ok res) :
    res.Sublist (candidatesOf r.docs query) ∧
    (candidatesOf r.docs query).Sublist r.docs ∧
    res.Sublist r.docs := by
  have h1 := checkLoop_sublist r.spiceClient r.permission userID
    (candidatesOf r.docs query) res h
  have h2 : (candidatesOf r.docs query).Sublist r.docs := List.filter_sublist _
  exact ⟨h1, h2, h1.trans h2⟩

theorem query_order_preservation_witness :
    ([docRoadmap, docPlaybook, docFaq] : List Document).Sublist
      (candidatesOf pipeAllow.docs "") ∧
    (candidatesOf pipeAllow.docs "").Sublist pipeAllow.docs ∧
    ([docRoadmap, docPlaybook, docFaq] : List Document).Sublist pipeAllow.docs :=
  query_order_preservation pipeAllow "emilia" ""
    [docRoadmap, docPlaybook, docFaq] (by rfl)

/-- C9: `Query` mutates nothing; in particular every document of a
successful result is, with its original id, text and metadata, an
element of the configured collection, in collection order (the
embedding is a pure function of the pipeline, which the Go method never
writes to). -/
theorem query_preserves_state (r : RAGPipeline E) (userID query : String)
    (res : List Document) (h : Query r userID query = Except.ok res) :
    res.Sublist r.docs ∧ ∀ d ∈ res, d ∈ r.docs := by
  have h1 := checkLoop_sublist r.spiceClient r.permission userID
    (candidatesOf r.docs query) res h
  have h2 : (candidatesOf r.docs query).Sublist r.docs := List.filter_sublist _
  exact ⟨h1.trans h2, fun d hd => (h1.trans h2).subset hd⟩

theorem query_preserves_state_witness :
    ([docRoadmap] : List Document).Sublist pipeAllow.docs ∧
    ∀ d ∈ ([docRoadmap] : List Document), d ∈ pipeAllow.docs :=
  query_preserves_state pipeAllow "emilia" "roadmap" [docRoadmap] (by rfl)

/-- C8: `Query` is deterministic: two pipelines with the same documents
and configuration whose clients answer every request identically give
the same result (and the same error outcome). -/
theorem query_deterministic (r1 r2 : RAGPipeline E) (userID query : String)
    (hdocs : r1.docs = r2.docs) (hperm : r1.permission = r2.permission)
    (_hrt : r1.resourceType = r2.resourceType)
    (hcli : ∀ req, r1.spiceClient req = r2.spiceClient req) :
    Query r1 userID query = Query r2 userID query := by
  simp only [Query, hdocs, hperm]
  exact checkLoop_congr r1.spiceClient r2.spiceClient r2.permission userID hcli
    (candidatesOf r2.docs query)

theorem query_deterministic_witness :
    Query pipeAllow "emilia" "roadmap" = Query pipeAllow2 "emilia" "roadmap" :=
  query_deterministic pipeAllow pipeAllow2 "emilia" "roadmap" rfl rfl rfl
    (fun req => by simp [pipeAllow, pipeAllow2, NewRAGPipeline, clientAllow, clientAllow2])

/-- The empty pattern is contained in every string. -/
theorem containsFn_nil : ∀ (s : List Char), containsFn s [] = true
  | [] => rfl
  | _ :: rest => by simp [containsFn, hasPrefixFn, containsFn_nil rest]

/-- C4: a document is a retrieval candidate iff its lower-cased text
contains the lower-cased query as a contiguous substring; hence two
queries with the same lower-casing select identical candidate
sequences. -/
theorem retrieval_case_insensitive (docs : List Document) (q1 q2 : String)
    (h : lowerChars q1.data = lowerChars q2.data) :
    (∀ d, d ∈ candidatesOf docs q1 ↔
      d ∈ docs ∧ lowerChars q1.data <:+: lowerChars d.Text.data) ∧
    candidatesOf docs q1 = candidatesOf docs q2 := by
  constructor
  · intro d
    simp only [candidatesOf, List.mem_filter, textMatches, containsFn_iff]
  · simp only [candidatesOf, textMatches, h]

theorem retrieval_case_insensitive_witness :
    (∀ d, d ∈ candidatesOf [docRoadmap, docPlaybook, docFaq] "ROADMAP" ↔
      d ∈ [docRoadmap, docPlaybook, docFaq] ∧
        lowerChars ("ROADMAP" : String).data <:+: lowerChars d.Text.data) ∧
    candidatesOf [docRoadmap, docPlaybook, docFaq] "ROADMAP" =
      candidatesOf [docRoadmap, docPlaybook, docFaq] "roadmap" :=
  retrieval_case_insensitive [docRoadmap, docPlaybook, docFaq]
    "ROADMAP" "roadmap" (by decide)

/-- C5: the empty query matches every document: the retrieval pass
returns the whole collection, in order. -/
theorem retrieval_empty_query (docs : List Document) :
    candidatesOf docs "" = docs := by
  apply List.filter_eq_self.mpr
  intro d _
  have hempty : lowerChars ("" : String).data = [] := rfl
  simp only [textMatches, hempty, containsFn_nil]

/-- C6: identity resolution returns `none` exactly when the
`spicedb_object` key is missing, its value is empty, or the value
contains no colon (so the 2-bounded split does not yield two parts);
when it returns a pair, the value is precisely the part before the
first colon, a colon, and the rest. It is a pure parsing step. -/
theorem resolveIdentity_characterisation (d : Document) :
    (resolveIdentity d = none ↔
      d.Metadata.lookup "spicedb_object" = none ∨
      d.Metadata.lookup "spicedb_object" = some "" ∨
      ':' ∉ (metaGet d.Metadata "spicedb_object").data) ∧
    (∀ t i, resolveIdentity d = some (t, i) →
      (metaGet d.Metadata "spicedb_object").data = t.data ++ ':' :: i.data ∧
      ':' ∉ t.data) := by
  constructor
  · rw [resolveIdentity_eq]
    by_cases h0 : metaGet d.Metadata "spicedb_object" = ""
    · rw [if_pos h0]
      constructor
      · intro _
        right; right
        rw [h0]
        exact List.not_mem_nil ':'
      · intro _
        rfl
    · rw [if_neg h0]
      have hlk1 : ¬ d.Metadata.lookup "spicedb_object" = none := by
        intro hc
        exact h0 (by rw [metaGet, hc]; rfl)
      have hlk2 : ¬ d.Metadata.lookup "spicedb_object" = some "" := by
        intro hc
        exact h0 (by rw [metaGet, hc]; rfl)
      cases hsp : splitFirstColon (metaGet d.Metadata "spicedb_object").data with
      | none =>
        simp only [hsp]
        constructor
        · intro _
          right; right
          exact (splitFirstColon_none _).mp hsp
        · intro _
          trivial
      | some p =>
        obtain ⟨a, b⟩ := p
        simp only [hsp]
        constructor
        · intro h
          exact absurd h (by simp)
        · rintro (h | h | h)
          · exact absurd h hlk1
          · exact absurd h hlk2
          · obtain ⟨heq, _⟩ := splitFirstColon_spec _ a b hsp
            rw [heq] at h
            exact absurd (by simp : ':' ∈ a ++ ':' :: b) h
  · intro t i h
    rw [resolveIdentity_eq] at h
    by_cases h0 : metaGet d.Metadata "spicedb_object" = ""
    · rw [if_pos h0] at h
      exact absurd h (by simp)
    · rw [if_neg h0] at h
      cases hsp : splitFirstColon (metaGet d.Metadata "spicedb_object").data with
      | none =>
        rw [hsp] at h
        exact absurd h (by simp)
      | some p =>
        obtain ⟨a, b⟩ := p
        rw [hsp] at h
        simp only [Option.some.injEq, Prod.mk.injEq] at h
        obtain ⟨ht, hi⟩ := h
        obtain ⟨heq, hna⟩ := splitFirstColon_spec _ a b hsp
        subst ht
        subst hi
        exact ⟨heq, hna⟩

theorem resolveIdentity_characterisation_witness :
    (metaGet docRoadmap.Metadata "spicedb_object").data =
      ("document" : String).data ++ ':' :: ("doc1" : String).data ∧
    ':' ∉ ("document" : String).data :=
  (resolveIdentity_characterisation docRoadmap).2 "document" "doc1" (by decide)

/-- C3 counterexample: the reference value `":doc9"` does not consist
of two non-empty colon-separated parts, yet the document resolves (to
an empty resource type) and is included once the service grants the
check. -/
theorem query_no_identity_counterexample :
    metaGet docBadEmpty.Metadata "spicedb_object" = ":doc9" ∧
    resolveIdentity docBadEmpty = some ("", "doc9") ∧
    Query (NewRAGPipeline clientAllow "document" "read" [docBadEmpty]) "emilia" "" =
      Except.ok [docBadEmpty] :=
  ⟨by decide, by decide, by rfl⟩

/-- C3 (amended): a document whose `spicedb_object` metadata entry is
missing, empty, or colon-free resolves to no identity and is never in
any `Query` result, for any principal, query and authorization state,
even if it textually matches; it is skipped silently, never an error:
inserting it anywhere in the collection changes no `Query` outcome. -/
theorem query_no_identity_excluded (r : RAGPipeline E) (userID query : String)
    (d : Document) (hd : resolveIdentity d = none) :
    (∀ res, Query r userID query = Except.ok res → d ∉ res) ∧
    (∀ (l1 l2 : List Document)
      (client : CheckPermissionRequest → Except E CheckPermissionResponse)
      (rt p : String),
      Query ⟨l1 ++ d :: l2, client, rt, p⟩ userID query =
        Query ⟨l1 ++ l2, client, rt, p⟩ userID query) := by
  constructor
  · intro res h hmem
    simp only [Query] at h
    obtain ⟨rid, hrid⟩ := checkLoop_mem_resolve r.spiceClient r.permission userID
      (candidatesOf r.docs query) res h d hmem
    rw [hd] at hrid
    exact absurd hrid (by simp)
  · intro l1 l2 client rt p
    simp only [Query, candidatesOf, List.filter_append, List.filter_cons]
    by_cases hm : textMatches d.Text query = true
    · rw [if_pos hm]
      exact checkLoop_skip client p userID d hd _ _
    · rw [if_neg hm]

theorem query_no_identity_excluded_witness :
    (∀ res, Query pipeNoRef "emilia" "public" = Except.ok res → docNoRef ∉ res) ∧
    (∀ (l1 l2 : List Document)
      (client : CheckPermissionRequest → Except String CheckPermissionResponse)
      (rt p : String),
      Query ⟨l1 ++ docNoRef :: l2, client, rt, p⟩ "emilia" "public" =
        Query ⟨l1 ++ l2, client, rt, p⟩ "emilia" "public") :=
  query_no_identity_excluded pipeNoRef "emilia" "public" docNoRef (by decide)

/-- C2: if the client errs on the Nth issued check, all earlier checks
having succeeded, `Query` returns exactly that error with no result
list, the trace of issued checks stops at that Nth check (no check is
issued for any later candidate), and in general a `Query` errs iff one
of its issued checks errs. -/
theorem query_fail_fast (r : RAGPipeline E) (userID query : String)
    (pre post : List CheckPermissionRequest) (qe : CheckPermissionRequest) (e : E)
    (hsplit : potentialReqs r.permission userID (candidatesOf r.docs query) =
      pre ++ qe :: post)
    (hpre : ∀ q ∈ pre, ∃ resp, r.spiceClient q = Except.ok resp)
    (he : r.spiceClient qe = Except.error e) :
    Query r userID query = Except.error e ∧
    QueryTrace r userID query = pre ++ [qe] ∧
    ∀ userID' query', (∃ e', Query r userID' query' = Except.error e') ↔
      ∃ q ∈ QueryTrace r userID' query', ∃ e', r.spiceClient q = Except.error e' := by
  have htr : QueryTrace r userID query = pre ++ [qe] := by
    rw [QueryTrace, checkLoopTr_snd, hsplit]
    exact traceOf_break r.spiceClient qe e he pre post hpre
  have herr : Query r userID query = Except.error e := by
    simp only [Query]
    rw [← checkLoopTr_fst, checkLoopTr_error_iff]
    refine ⟨qe, ?_, he⟩
    have h2 : (checkLoopTr r.spiceClient r.permission userID
        (candidatesOf r.docs query)).2 = pre ++ [qe] := htr
    rw [h2]
    simp
  refine ⟨herr, htr, ?_⟩
  intro u' q'
  constructor
  · rintro ⟨e', he'⟩
    simp only [Query] at he'
    rw [← checkLoopTr_fst, checkLoopTr_error_iff] at he'
    obtain ⟨q, hq, hcq⟩ := he'
    exact ⟨q, hq, e', hcq⟩
  · rintro ⟨q, hq, e', hcq⟩
    refine ⟨e', ?_⟩
    simp only [Query]
    rw [← checkLoopTr_fst, checkLoopTr_error_iff]
    exact ⟨q, hq, hcq⟩

theorem query_fail_fast_witness :
    Query pipeErr "emilia" "" = Except.error "network failure" ∧
    QueryTrace pipeErr "emilia" "" =
      [mkCheckRequest "read" "emilia" ("document", "doc1")] ++
        [mkCheckRequest "read" "emilia" ("document", "doc2")] ∧
    ∀ userID' query', (∃ e', Query pipeErr userID' query' = Except.error e') ↔
      ∃ q ∈ QueryTrace pipeErr userID' query',
        ∃ e', pipeErr.spiceClient q = Except.error e' :=
  query_fail_fast pipeErr "emilia" ""
    [mkCheckRequest "read" "emilia" ("document", "doc1")]
    [mkCheckRequest "read" "emilia" ("document", "doc3")]
    (mkCheckRequest "read" "emilia" ("document", "doc2")) "network failure"
    (by decide)
    (by
      intro q hq
      simp only [List.mem_singleton] at hq
      subst hq
      exact ⟨⟨Permissionship.PERMISSIONSHIP_HAS_PERMISSION⟩, rfl⟩)
    rfl

/-- C7: every check `Query` issues carries the pipeline's configured
permission, the fixed subject type `"user"` with the querying principal
as subject id, and a resource equal to the identity parsed from some
candidate's metadata reference; the configured `resourceType` field
plays no part in the result or the issued checks. -/
theorem check_request_shape (r : RAGPipeline E) (userID query : String) :
    (∀ req ∈ QueryTrace r userID query,
      req.Permission = r.permission ∧
      req.Subject = ⟨⟨"user", userID⟩⟩ ∧
      ∃ d ∈ candidatesOf r.docs query,
        resolveIdentity d = some (req.Resource.ObjectType, req.Resource.ObjectId)) ∧
    (∀ t, Query ⟨r.docs, r.spiceClient, t, r.permission⟩ userID query =
        Query r userID query ∧
      QueryTrace ⟨r.docs, r.spiceClient, t, r.permission⟩ userID query =
        QueryTrace r userID query) := by
  constructor
  · intro req hreq
    simp only [QueryTrace, checkLoopTr_snd] at hreq
    have hmem := traceOf_mem r.spiceClient _ req hreq
    obtain ⟨d, hd, rid, hrid, hreqeq⟩ := potentialReqs_mem r.permission userID _ req hmem
    subst hreqeq
    exact ⟨rfl, rfl, d, hd, by simpa using hrid⟩
  · intro t
    exact ⟨rfl, rfl⟩

theorem check_request_shape_witness :
    (mkCheckRequest "read" "emilia" ("document", "doc1")).Permission =
      pipeAllow.permission ∧
    (mkCheckRequest "read" "emilia" ("document", "doc1")).Subject =
      ⟨⟨"user", "emilia"⟩⟩ ∧
    ∃ d ∈ candidatesOf pipeAllow.docs "roadmap",
      resolveIdentity d = some
        ((mkCheckRequest "read" "emilia" ("document", "doc1")).Resource.ObjectType,
          (mkCheckRequest "read" "emilia" ("document", "doc1")).Resource.ObjectId) :=
  (check_request_shape pipeAllow "emilia" "roadmap").1
    (mkCheckRequest "read" "emilia" ("document", "doc1")) (by decide)

/-- C10: when no issued check errs, `Query` succeeds and keeps exactly
the candidates whose response permissionship is
`PERMISSIONSHIP_HAS_PERMISSION`; any other returned permissionship
(no-permission, unspecified or conditional) silently excludes the
candidate, processing continues, and no error is surfaced. -/
theorem query_has_permission_exact (r : RAGPipeline E) (userID query : String)
    (hall : ∀ d ∈ candidatesOf r.docs query, ∀ rid, resolveIdentity d = some rid →
      ∃ resp, r.spiceClient (mkCheckRequest r.permission userID rid) = Except.ok resp) :
    Query r userID query =
      Except.ok ((candidatesOf r.docs query).filter
        (allowedCheck r.spiceClient r.permission userID)) ∧
    ∀ d rid resp, resolveIdentity d = some rid →
      r.spiceClient (mkCheckRequest r.permission userID rid) = Except.ok resp →
      (allowedCheck r.spiceClient r.permission userID d = true ↔
        resp.Permissionship = Permissionship.PERMISSIONSHIP_HAS_PERMISSION) := by
  refine ⟨?_, ?_⟩
  · simp only [Query]
    exact checkLoop_ok_filter r.spiceClient r.permission userID _ hall
  · intro d rid resp hrid hresp
    simp [allowedCheck, hrid, hresp]

theorem query_has_permission_exact_witness :
    Query pipeMixed "emilia" "" =
      Except.ok ((candidatesOf pipeMixed.docs "").filter
        (allowedCheck pipeMixed.spiceClient pipeMixed.permission "emilia")) ∧
    ∀ d rid resp, resolveIdentity d = some rid →
      pipeMixed.spiceClient (mkCheckRequest pipeMixed.permission "emilia" rid) =
        Except.ok resp →
      (allowedCheck pipeMixed.spiceClient pipeMixed.permission "emilia" d = true ↔
        resp.Permissionship = Permissionship.PERMISSIONSHIP_HAS_PERMISSION) :=
  query_has_permission_exact pipeMixed "emilia" ""
    (fun _ _ rid _ =>
      ⟨⟨permFor (mkCheckRequest pipeMixed.permission "emilia" rid).Resource.ObjectId⟩,
        rfl⟩)

end Rag
